import Mathlib

/-!
Verification of the networker `networkplanner_runner` pipeline
(`src/networker/networkplanner_runner.py`).

The development shallowly embeds the pipeline stages the specification
talks about:

* the demand graph builder (`_get_demand_nodes`),
* the projection resolver (`_get_default_proj4`),
* the existing-network namespacer and the generation dispatcher
  (`_build_network`),
* the component filter and the identifier realigner (`_build_network`),
* the topology persister (`_store_networks`),
* the store-to-graph conversion (`dataset_store_to_geograph`).

Graphs are embedded as node lists plus edge lists; the networkx calls
used by the source (`connected_component_subgraphs`, `union_all`,
`relabel_nodes`) are embedded by executable Lean functions with the same
observable behaviour on well-formed graphs.  Machine-level artifacts the
source cares about (numpy integers versus plain `int`, Python `dict`
overwrite-on-duplicate-key semantics, string relabeling) are modelled
explicitly.
-/

namespace Networker


/-! ## Python dict lookup

Python dict comprehensions overwrite on duplicate keys: the *last*
binding wins.  `dlookup` models lookup in such a dict built from an
association list in insertion order. -/

def dlookup {α β : Type} [DecidableEq α] : List (α × β) → α → Option β
  | [], _ => none
  | p :: l, k =>
    match dlookup l k with
    | some v => some v
    | none => if p.1 = k then some p.2 else none

/-! ## Graphs

`FGraph` embeds a networkx graph as used by the pipeline after the
generation step: integer node identifiers, an undirected edge list.
Node attributes (budgets, coordinates) and edge attributes (weights)
are carried separately by the structures that need them, mirroring the
separate networkx attribute dictionaries. -/

structure FGraph where
  nodes : List Int
  edges : List (Int × Int)
deriving DecidableEq, Repr

/-- Well-formedness of a networkx graph: the node dict has no duplicate
keys and every edge endpoint is a node of the graph. -/
def FGraph.WF (g : FGraph) : Prop :=
  g.nodes.Nodup ∧ ∀ e ∈ g.edges, e.1 ∈ g.nodes ∧ e.2 ∈ g.nodes

instance (g : FGraph) : Decidable g.WF := by
  unfold FGraph.WF; infer_instance

/-- Undirected adjacency given by the edge list. -/
def adjB (g : FGraph) (u v : Int) : Bool :=
  g.edges.any fun e => decide ((e.1 = u ∧ e.2 = v) ∨ (e.1 = v ∧ e.2 = u))

/-- Reachability along edges: the reflexive-transitive closure of
adjacency.  Used only to state connectivity of the computed components. -/
def Reach (g : FGraph) (u v : Int) : Prop :=
  Relation.ReflTransGen (fun a b => adjB g a b = true) u v

/-! ## Connected components (`nx.connected_component_subgraphs`)

networkx computes the connected components by search from each not yet
visited node.  `closure` is the frontier-expansion search: it moves the
nodes of `rest` that are adjacent to the visited set `s` into `s`, until
nothing is adjacent any more; the fuel only bounds the number of
rounds, and `rest.length` rounds always suffice. -/

def closure (g : FGraph) : Nat → List Int → List Int → List Int × List Int
  | 0, s, rest => (s, rest)
  | fuel + 1, s, rest =>
    if (rest.filter fun v => s.any fun u => adjB g u v).isEmpty then (s, rest)
    else closure g fuel (s ++ rest.filter fun v => s.any fun u => adjB g u v)
      (rest.filter fun v => ! (s.any fun u => adjB g u v))

/-- The subgraph of `g` induced on the node list `s` (networkx component
subgraphs carry the induced edges). -/
def mkSub (g : FGraph) (s : List Int) : FGraph :=
  ⟨s, g.edges.filter fun e => decide (e.1 ∈ s) && decide (e.2 ∈ s)⟩

def compsAux (g : FGraph) : Nat → List Int → List FGraph
  | 0, _ => []
  | _ + 1, [] => []
  | fuel + 1, r :: rest =>
    mkSub g (closure g rest.length [r] rest).1 ::
      compsAux g fuel (closure g rest.length [r] rest).2

/-- Embedding of `nx.connected_component_subgraphs`. -/
def connected_component_subgraphs (g : FGraph) : List FGraph :=
  compsAux g g.nodes.length g.nodes

/-! ## `nx.union_all` and the component filter -/

inductive NxError where
  | unionAllEmpty
deriving DecidableEq, Repr

/-- Embedding of `nx.union_all`: disjoint union of a list of graphs.
networkx raises when handed an empty sequence of graphs (there is no
graph to start from), which the `Except` models. -/
def union_all : List FGraph → Except NxError FGraph
  | [] => Except.error NxError.unionAllEmpty
  | g :: gs =>
    Except.ok ⟨((g :: gs).map FGraph.nodes).flatten, ((g :: gs).map FGraph.edges).flatten⟩

/-- The component filter of `_build_network`: keep the connected
components with at least `min_node_count` nodes and take their union
(`filtered_graph` in the source). -/
def component_filter (g : FGraph) (min_node_count : Nat) : Except NxError FGraph :=
  union_all ((connected_component_subgraphs g).filter
    fun sub => decide (min_node_count ≤ sub.nodes.length))

/-- Graph equality as networkx sees it: same node set, same edge set
(graphs are dictionaries, so order does not matter). -/
def GEq (g₁ g₂ : FGraph) : Prop :=
  (∀ n, n ∈ g₁.nodes ↔ n ∈ g₂.nodes) ∧ (∀ e, e ∈ g₁.edges ↔ e ∈ g₂.edges)

/-! ## Properties of the computed components -/

/-- What `connected_component_subgraphs` guarantees of each emitted
subgraph `c` (`scope` is the node list the components were computed
over): nonempty nodup node list inside the scope, closed under
adjacency, connected from a root, and carrying the induced edges. -/
def CompOK (g : FGraph) (scope : List Int) (c : FGraph) : Prop :=
  c.nodes ≠ [] ∧ c.nodes.Nodup ∧ c.nodes ⊆ scope ∧
  (∀ u ∈ c.nodes, ∀ v, adjB g u v = true → v ∈ c.nodes) ∧
  (∃ r, r ∈ c.nodes ∧ ∀ v ∈ c.nodes, Reach g r v) ∧
  c.edges = g.edges.filter fun e => decide (e.1 ∈ c.nodes) && decide (e.2 ∈ c.nodes)

/-! ## The component filter -/

/-- The components surviving the minimum-node-count filter
(`filter(lambda sub: len(sub.node) >= min_node_count, ...)`). -/
def keptComps (g : FGraph) (k : Nat) : List FGraph :=
  (connected_component_subgraphs g).filter fun sub => decide (k ≤ sub.nodes.length)

/-- The graph a successful `nx.union_all` builds. -/
def unionGraph (gs : List FGraph) : FGraph :=
  ⟨(gs.map FGraph.nodes).flatten, (gs.map FGraph.edges).flatten⟩

/-- The two-node forest used by the component-filter evaluation. -/
def gC3W : FGraph := ⟨[0, 1], [(0, 1)]⟩

/-- A forest whose only component is below every threshold above 1. -/
def gC4 : FGraph := ⟨[0], []⟩

/-! ## Python values

`PyId` embeds the Python node identifiers in play around the merge: the
demand graph uses plain integers, the namespacer rewrites the existing
network's identifiers to strings.  `pyStr` is Python `str()` on these
values.  `PyInt` embeds a Python integer value together with whether it
is a plain native `int` (`native = true`) or a numpy integer
(`native = false`); the two compare and hash equal in Python when the
values agree, and arithmetic on a numpy integer yields a numpy
integer. -/

inductive PyId where
  | int (n : Int)
  | str (s : String)
deriving DecidableEq, Repr

def pyStr : PyId → String
  | PyId.int n => toString n
  | PyId.str s => s

structure PyInt where
  val : Int
  native : Bool
deriving DecidableEq, Repr

/-- Budget attribute of a node: either the infinite sentinel `np.inf`
marking a synthetic node or a finite metric value. -/
inductive Budget where
  | inf
  | fin (q : ℚ)
deriving DecidableEq, Repr

/-! ## Existing networks and the namespacer (`_build_network`) -/

structure ExEdge where
  u : PyId
  v : PyId
  w : ℚ
deriving DecidableEq, Repr

structure ExGraph where
  nodes : List PyId
  edges : List ExEdge
  coords : List (PyId × (ℚ × ℚ))
deriving DecidableEq, Repr

def ExGraph.WF (ex : ExGraph) : Prop :=
  ∀ e ∈ ex.edges, e.u ∈ ex.nodes ∧ e.v ∈ ex.nodes

instance (ex : ExGraph) : Decidable ex.WF := by
  unfold ExGraph.WF; infer_instance

/-- The relabeling applied by `_build_network` to every existing-network
node: `n -> 'grid-' + str(n)`. -/
def gridId (n : PyId) : PyId :=
  PyId.str ("grid-" ++ pyStr n)

/-- The namespacer of `_build_network`: relabel every node of the
loaded existing network with `gridId` and re-key its coordinate dict
with the same map (`existing.coords = {'grid-' + str(n): c ...}`). -/
def namespaceExisting (ex : ExGraph) : ExGraph :=
  ⟨ex.nodes.map gridId,
   ex.edges.map fun e => ⟨gridId e.u, gridId e.v, e.w⟩,
   ex.coords.map fun p => (gridId p.1, p.2)⟩

/-! ## The demand graph builder and the identifier realigner -/

/-- A record of the dataset store as seen by `_get_demand_nodes`: the
node at 0-based position `i` of `store.cycleNodes()` carries store id
`i + 1` (dataset_store node ids are sequential starting at 1, per the
source comments). -/
structure DemandStoreNode where
  coord : ℚ × ℚ
  metric : Budget
deriving DecidableEq, Repr

/-- `_get_demand_nodes`: the GeoGraph node ids are the 0-based positions
of the store records, as plain native integers. -/
def demandGraphIds (store : List DemandStoreNode) : List PyInt :=
  (List.range store.length).map fun i => ⟨Int.ofNat i, true⟩

/-- Python `i + 1` on a graph node id: numpy-ness propagates through
arithmetic. -/
def pyAdd1 (i : PyInt) : PyInt :=
  ⟨i.val + 1, i.native⟩

/-- The realigner's relabel map `{i: int(i+1) for i in filtered_graph}`:
the result of `int(...)` is always a plain native integer. -/
def realignId (i : PyInt) : PyInt :=
  ⟨i.val + 1, true⟩

/-- The realigner's coordinate re-keying
`{i+1: result_geo_graph.coords[i] for i in filtered_graph}`: the key is
`i + 1` (no `int(...)` coercion here), the value is looked up by value
in the source coordinate dict. -/
def realignCoords (origCoords : List (Int × (ℚ × ℚ))) (filteredNodes : List PyInt) :
    List (PyInt × Option (ℚ × ℚ)) :=
  filteredNodes.map fun i => (pyAdd1 i, dlookup origCoords i.val)

/-! ## The topology persister (`_store_networks`) -/

/-- The graph handed to `_store_networks` (`msf`): realigned integer
node ids, a budget dict, a coordinate dict and an edge-weight dict. -/
structure MsfGraph where
  graph : FGraph
  budgets : List (Int × Budget)
  coords : List (Int × (ℚ × ℚ))
  weights : List ((Int × Int) × ℚ)
deriving DecidableEq, Repr

/-- `msf.node[n]['budget'] == np.inf`. -/
def isInfBudget (m : MsfGraph) (n : Int) : Bool :=
  dlookup m.budgets n == some Budget.inf

/-- Edge-data lookup `data['weight']` (undirected: the attribute is
found under either orientation of the pair). -/
def edgeWeight (m : MsfGraph) (e : Int × Int) : Option ℚ :=
  match dlookup m.weights (e.1, e.2) with
  | some w => some w
  | none => dlookup m.weights (e.2, e.1)

/-- A fake-node record written by `store.addNode(..., is_fake=True)`
followed by `dataset_node.id = fake`. -/
structure FakeRec where
  id : Int
  coord : Option (ℚ × ℚ)
deriving DecidableEq, Repr

/-- A proposed segment written during the proposed pass. -/
structure PropSeg where
  node1 : Int
  node2 : Int
  subnet_id : Nat
  weight : Option ℚ
  is_existing : Bool
deriving DecidableEq, Repr

/-- An existing segment written during the existing pass. -/
structure ExSeg where
  node1 : PyId
  node2 : PyId
  subnet_id : Nat
  weight : ℚ
  is_existing : Bool
deriving DecidableEq, Repr

inductive StoreErr where
  | structuralIntegrity
deriving DecidableEq, Repr

/-- The subnet id of the dedicated existing-network subnet. -/
def exSubnetId : Nat := 0

/-- The existing pass of `_store_networks`: one segment per edge of the
namespaced existing graph, `is_existing = True`, the existing weight,
all under the one dedicated subnet. -/
def existingPass (ex : ExGraph) : List ExSeg :=
  ex.edges.map fun e => ⟨e.u, e.v, exSubnetId, e.w, true⟩

/-- Processing of one proposed edge: the endpoints with infinite budget
are written as fake-node records one by one (`enumerate(..., 1)`), and
`assert i <= 1` aborts on the second one — after it was added, before
the segment is written.  With at most one fake endpoint the segment is
added with `is_existing = False`. -/
def procEdge (m : MsfGraph) (snid : Nat) (e : Int × Int) :
    List FakeRec × Option PropSeg × Option StoreErr :=
  let fakes := [e.1, e.2].filter fun n => isInfBudget m n
  let recs := fakes.map fun n => FakeRec.mk n (dlookup m.coords n)
  if fakes.length ≤ 1 then
    (recs, some ⟨e.1, e.2, snid, edgeWeight m e, false⟩, none)
  else
    (recs, none, some StoreErr.structuralIntegrity)

/-- Processing of the edges of one component subgraph; an assertion
failure aborts the whole run. -/
def procEdges (m : MsfGraph) (snid : Nat) :
    List (Int × Int) → List FakeRec × List PropSeg × Option StoreErr
  | [] => ([], [], none)
  | e :: es =>
    match procEdge m snid e with
    | (recs, _, some err) => (recs, [], some err)
    | (recs, seg?, none) =>
      match procEdges m snid es with
      | (rs, ss, er) => (recs ++ rs, seg?.toList ++ ss, er)

/-- Processing of the component subgraphs of the proposed forest, one
fresh subnet per component. -/
def procComps (m : MsfGraph) :
    Nat → List FGraph → List FakeRec × List PropSeg × Option StoreErr
  | _, [] => ([], [], none)
  | snid, c :: cs =>
    match procEdges m snid c.edges with
    | (rs, ss, some err) => (rs, ss, some err)
    | (rs, ss, none) =>
      match procComps m (snid + 1) cs with
      | (rs₂, ss₂, er₂) => (rs ++ rs₂, ss ++ ss₂, er₂)

/-- What `_store_networks` has added to the store session (also on an
aborted run, mirroring the Python session state at the time the
assertion fires). -/
structure StoreOut where
  exSegs : List ExSeg
  fakeRecs : List FakeRec
  propSegs : List PropSeg
deriving DecidableEq, Repr

/-- `_store_networks(msf, existing)`.  `existing` is optional; a loaded
but node-less existing graph is falsy in Python (`if existing:`) and
skips the existing pass.  Proposed subnet ids start after the dedicated
existing subnet id. -/
def store_networks (m : MsfGraph) (existing : Option ExGraph) :
    StoreOut × Option StoreErr :=
  let exSegs : List ExSeg :=
    match existing with
    | none => []
    | some ex => if ex.nodes.isEmpty then [] else existingPass ex
  match procComps m (exSubnetId + 1) (connected_component_subgraphs m.graph) with
  | (frs, pss, err) => (⟨exSegs, frs, pss⟩, err)

/-! ## The projection resolver (`_get_default_proj4`) -/

inductive Proj where
  | latlong
  | flatEarth
deriving DecidableEq, Repr

inductive ResolverErr where
  | invalidInput
deriving DecidableEq, Repr

/-- Modelled from the spec: `networker.geomath.is_in_lon_lat` — the
geomath module is not part of this tree.  Per the Resolver contract
(spec section 4.1) a sequence is geographic exactly when every
coordinate lies within [-180, 180] x [-90, 90], and an empty coordinate
sequence fails with `InvalidInputError`. -/
def is_in_lon_lat (coords : List (ℚ × ℚ)) : Except ResolverErr Bool :=
  if coords.isEmpty then Except.error ResolverErr.invalidInput
  else Except.ok (coords.all fun c =>
    decide (-180 ≤ c.1 ∧ c.1 ≤ 180 ∧ -90 ≤ c.2 ∧ c.2 ≤ 90))

/-- `_get_default_proj4`: start from the planar flat-earth reference and
switch to the geographic one when the coordinates look like degrees;
a failure of the classifier propagates. -/
def get_default_proj4 (coords : List (ℚ × ℚ)) : Except ResolverErr Proj :=
  match is_in_lon_lat coords with
  | Except.error e => Except.error e
  | Except.ok b => Except.ok (if b then Proj.latlong else Proj.flatEarth)

/-! ## The generation dispatcher (`_build_network`) -/

def Strategy : Type := FGraph → FGraph

inductive ConfigErr where
  | configurationError
deriving DecidableEq, Repr

/-- Modelled from the spec: the fixed strategy registry
(`networker_runner.NetworkerRunner.ALGOS` is not part of this tree) — a
fixed mapping from strategy names to generation callables.  The
callables themselves are out of the spec's scope (only the dispatch
contract is specified), so they are stand-in graph functions. -/
def ALGOS : List (String × Strategy) :=
  [("mod_boruvka", fun g => g), ("mod_kruskal", fun g => g)]

/-- The dispatch `ALGOS[self.config['network_algorithm']]`: a Python
dict subscript, which raises when the name is not a key of the registry
(`ConfigurationError` in the spec's taxonomy). -/
def dispatch_network_algo (name : String) : Except ConfigErr Strategy :=
  match dlookup ALGOS name with
  | some s => Except.ok s
  | none => Except.error ConfigErr.configurationError

/-! ## `dataset_store_to_geograph` -/

structure DSNode where
  id : Int
  coord : ℚ × ℚ
  metric : Budget
  isFake : Bool
deriving DecidableEq, Repr

structure DSSeg where
  node1_id : Int
  node2_id : Int
  weight : ℚ
  is_existing : Bool
  subnet_id : Nat
deriving DecidableEq, Repr

structure DStore where
  nodes : List DSNode
  segments : List DSSeg
deriving DecidableEq, Repr

/-- `dataset_store.cycleNodes(isFake=...)`. -/
def DStore.cycleNodes (st : DStore) (isFake : Bool) : List DSNode :=
  st.nodes.filter fun n => n.isFake == isFake

/-- `dataset_store.cycleSegments(is_existing=...)`. -/
def DStore.cycleSegments (st : DStore) (is_existing : Bool) : List DSSeg :=
  st.segments.filter fun s => s.is_existing == is_existing

/-- `all_nodes = list(cycleNodes()) + list(cycleNodes(isFake=True))`. -/
def allStoreNodes (st : DStore) : List DSNode :=
  st.cycleNodes false ++ st.cycleNodes true

/-- `enumerate` with the enumeration index as dict key:
`enumKeyed f n [x, y, ...] = [(n, f x), (n+1, f y), ...]`. -/
def enumKeyed {α β : Type} (f : α → β) : Nat → List α → List (Nat × β)
  | _, [] => []
  | i, x :: xs => (i, f x) :: enumKeyed f (i + 1) xs

/-- `enumerate` keyed the other way:
`{node.id: i for i, node in enumerate(all_nodes)}`. -/
def idKeyed : Nat → List DSNode → List (Int × Nat)
  | _, [] => []
  | i, x :: xs => (x.id, i) :: idKeyed (i + 1) xs

def np_to_nx_id (st : DStore) : List (Int × Nat) :=
  idKeyed 0 (allStoreNodes st)

inductive KeyErr where
  | keyError
deriving DecidableEq, Repr

/-- `seg_to_nx_ids`: both endpoint store ids looked up in the
`np_to_nx_id` dict; a missing key raises. -/
def segToNx (st : DStore) (s : DSSeg) : Except KeyErr (Nat × Nat) :=
  match dlookup (np_to_nx_id st) s.node1_id, dlookup (np_to_nx_id st) s.node2_id with
  | some a, some b => Except.ok (a, b)
  | _, _ => Except.error KeyErr.keyError

/-- The list comprehensions of `dataset_store_to_geograph`: first raise
wins, otherwise the list of results. -/
def mapExcept {α β ε : Type} (f : α → Except ε β) : List α → Except ε (List β)
  | [] => Except.ok []
  | x :: xs =>
    match f x with
    | Except.error e => Except.error e
    | Except.ok y =>
      match mapExcept f xs with
      | Except.error e => Except.error e
      | Except.ok ys => Except.ok (y :: ys)

/-- The GeoGraph built by `dataset_store_to_geograph`: nodes are the
keys of the coordinate dict (the enumeration indices), with coordinate,
budget and edge-attribute dicts. -/
structure OutGraph where
  nodes : List Nat
  coords : List (Nat × (ℚ × ℚ))
  budgets : List (Nat × Budget)
  edges : List (Nat × Nat)
  edge_weights : List ((Nat × Nat) × ℚ)
  edge_is_existing : List ((Nat × Nat) × Bool)
  edge_subnet : List ((Nat × Nat) × Nat)
deriving DecidableEq, Repr

/-- `dataset_store_to_geograph`: every store node (real and fake, in
that order) becomes a graph node keyed by its enumeration index; only
the segments cycled with `is_existing=False` become edges, with their
weight, `is_existing` and subnet id as edge attributes. -/
def dataset_store_to_geograph (st : DStore) : Except KeyErr OutGraph :=
  match mapExcept (segToNx st) (st.cycleSegments false),
      mapExcept (fun s => (segToNx st s).map fun e => (e, s.weight))
        (st.cycleSegments false),
      mapExcept (fun s => (segToNx st s).map fun e => (e, s.is_existing))
        (st.cycleSegments false),
      mapExcept (fun s => (segToNx st s).map fun e => (e, s.subnet_id))
        (st.cycleSegments false) with
  | Except.ok edges, Except.ok ws, Except.ok ise, Except.ok sn =>
    Except.ok ⟨List.range (allStoreNodes st).length,
      enumKeyed DSNode.coord 0 (allStoreNodes st),
      enumKeyed DSNode.metric 0 (allStoreNodes st),
      edges, ws, ise, sn⟩
  | Except.error e, _, _, _ => Except.error e
  | _, Except.error e, _, _ => Except.error e
  | _, _, Except.error e, _ => Except.error e
  | _, _, _, Except.error e => Except.error e

/-- An existing network with two nodes whose Python `str()` renderings
collide. -/
def exC5 : ExGraph :=
  ⟨[PyId.int 1, PyId.str ("1")], [],
   [(PyId.int 1, ((1 : ℚ), (1 : ℚ))), (PyId.str ("1"), ((2 : ℚ), (2 : ℚ)))]⟩

def exC5W : ExGraph :=
  ⟨[PyId.int 1, PyId.int 2], [⟨PyId.int 1, PyId.int 2, 7⟩],
   [(PyId.int 1, ((1 : ℚ), (2 : ℚ))), (PyId.int 2, ((3 : ℚ), (4 : ℚ)))]⟩

def msfC2W : MsfGraph :=
  ⟨⟨[1, 2], [(1, 2)]⟩,
   [(1, Budget.inf), (2, Budget.inf)],
   [(1, ((0 : ℚ), (0 : ℚ))), (2, ((1 : ℚ), (0 : ℚ)))],
   [(((1 : Int), (2 : Int)), (9 : ℚ))]⟩

/-- A filtered forest whose synthetic node 1 is incident to two
surviving edges. -/
def msfC6 : MsfGraph :=
  ⟨⟨[1, 2, 3], [(1, 2), (1, 3)]⟩,
   [(1, Budget.inf), (2, Budget.fin 5), (3, Budget.fin 7)],
   [(1, ((0 : ℚ), (0 : ℚ))), (2, ((1 : ℚ), (0 : ℚ))), (3, ((0 : ℚ), (1 : ℚ)))],
   [(((1 : Int), (2 : Int)), (9 : ℚ)), (((1 : Int), (3 : Int)), (8 : ℚ))]⟩

def exC7W : ExGraph :=
  ⟨[gridId (PyId.int 1), gridId (PyId.int 2)],
   [⟨gridId (PyId.int 1), gridId (PyId.int 2), 7⟩], []⟩

def stC10W : DStore :=
  ⟨[⟨1, ((0 : ℚ), (0 : ℚ)), Budget.fin 1, false⟩,
    ⟨2, ((1 : ℚ), (1 : ℚ)), Budget.inf, true⟩],
   [⟨1, 2, 5, false, 1⟩, ⟨1, 2, 7, true, 2⟩]⟩

def GWC10 : OutGraph :=
  ⟨[0, 1],
   [(0, ((0 : ℚ), (0 : ℚ))), (1, ((1 : ℚ), (1 : ℚ)))],
   [(0, Budget.fin 1), (1, Budget.inf)],
   [(0, 1)],
   [((0, 1), 5)],
   [((0, 1), false)],
   [((0, 1), 1)]⟩

theorem dlookup_nil {α β : Type} [DecidableEq α] (k : α) :
    dlookup ([] : List (α × β)) k = none := rfl

theorem dlookup_eq_none {α β : Type} [DecidableEq α]
    (l : List (α × β)) (k : α) (h : k ∉ l.map Prod.fst) :
    dlookup l k = none := by
  induction l with
  | nil => rfl
  | cons p l ih =>
    simp only [List.map_cons, List.mem_cons, not_or] at h
    have hne : ¬ p.1 = k := fun hc => h.1 hc.symm
    simp only [dlookup, ih h.2, if_neg hne]

theorem adjB_symm (g : FGraph) (u v : Int) : adjB g u v = adjB g v u := by
  unfold adjB
  have h : (fun e : Int × Int => decide ((e.1 = u ∧ e.2 = v) ∨ (e.1 = v ∧ e.2 = u)))
      = (fun e : Int × Int => decide ((e.1 = v ∧ e.2 = u) ∨ (e.1 = u ∧ e.2 = v))) := by
    funext e; exact decide_eq_decide.mpr or_comm
  rw [h]

theorem adjB_mem (g : FGraph) (hwf : g.WF) (u v : Int)
    (h : adjB g u v = true) : u ∈ g.nodes ∧ v ∈ g.nodes := by
  unfold adjB at h
  simp only [List.any_eq_true, decide_eq_true_eq] at h
  obtain ⟨e, he, hor⟩ := h
  rcases hor with ⟨h1, h2⟩ | ⟨h1, h2⟩
  · exact ⟨h1 ▸ (hwf.2 e he).1, h2 ▸ (hwf.2 e he).2⟩
  · exact ⟨h2 ▸ (hwf.2 e he).2, h1 ▸ (hwf.2 e he).1⟩

theorem Reach.symm {g : FGraph} {u v : Int} (h : Reach g u v) : Reach g v u :=
  Relation.ReflTransGen.symmetric (fun a b hab => (adjB_symm g a b) ▸ hab) h

/-! ## Properties of the frontier search -/

theorem sublist_flatten {α : Type} {l₁ l₂ : List (List α)}
    (h : List.Sublist l₁ l₂) : List.Sublist l₁.flatten l₂.flatten := by
  induction h with
  | slnil => exact List.Sublist.refl _
  | cons a _ ih =>
    simp only [List.flatten_cons]
    exact ih.trans (List.sublist_append_right a _)
  | cons₂ a _ ih =>
    simp only [List.flatten_cons]
    exact ih.append_left a

theorem closure_stop (g : FGraph) (fuel : Nat) (s rest : List Int)
    (h : (rest.filter fun v => s.any fun u => adjB g u v).isEmpty = true) :
    closure g (fuel + 1) s rest = (s, rest) := by
  simp only [closure, h, if_true]

theorem closure_go (g : FGraph) (fuel : Nat) (s rest : List Int)
    (h : ¬ (rest.filter fun v => s.any fun u => adjB g u v).isEmpty = true) :
    closure g (fuel + 1) s rest =
      closure g fuel (s ++ rest.filter fun v => s.any fun u => adjB g u v)
        (rest.filter fun v => ! (s.any fun u => adjB g u v)) := by
  have hfalse : (rest.filter fun v => s.any fun u => adjB g u v).isEmpty = false :=
    Bool.eq_false_iff.mpr h
  simp only [closure, hfalse, Bool.false_eq_true, if_false]

/-- The search only rearranges nodes: visited plus remaining is a
permutation of the input. -/
theorem closure_perm (g : FGraph) : ∀ fuel s rest,
    List.Perm ((closure g fuel s rest).1 ++ (closure g fuel s rest).2)
      (s ++ rest) := by
  intro fuel
  induction fuel with
  | zero => intro s rest; exact List.Perm.refl _
  | succ fuel ih =>
    intro s rest
    by_cases h : (rest.filter fun v => s.any fun u => adjB g u v).isEmpty = true
    · rw [closure_stop g fuel s rest h]
    · rw [closure_go g fuel s rest h]
      refine (ih _ _).trans ?_
      rw [List.append_assoc]
      exact List.Perm.append_left s (List.filter_append_perm _ rest)

/-- The seed set is contained in the visited set. -/
theorem closure_seed_subset (g : FGraph) : ∀ fuel s rest,
    s ⊆ (closure g fuel s rest).1 := by
  intro fuel
  induction fuel with
  | zero => intro s rest; exact fun a ha => ha
  | succ fuel ih =>
    intro s rest
    by_cases h : (rest.filter fun v => s.any fun u => adjB g u v).isEmpty = true
    · rw [closure_stop g fuel s rest h]
      exact fun a ha => ha
    · rw [closure_go g fuel s rest h]
      exact fun a ha => ih _ _ (List.mem_append_left _ ha)

/-- The remaining set is a sublist of the input rest. -/
theorem closure_rest_sublist (g : FGraph) : ∀ fuel s rest,
    List.Sublist (closure g fuel s rest).2 rest := by
  intro fuel
  induction fuel with
  | zero => intro s rest; exact List.Sublist.refl _
  | succ fuel ih =>
    intro s rest
    by_cases h : (rest.filter fun v => s.any fun u => adjB g u v).isEmpty = true
    · rw [closure_stop g fuel s rest h]
    · rw [closure_go g fuel s rest h]
      exact (ih _ _).trans (List.filter_sublist rest)

/-- Any adjacency-closed predicate holding on the seed holds on the
whole visited set: the search only adds neighbours of visited nodes. -/
theorem closure_invariant (g : FGraph) (P : Int → Prop)
    (hP : ∀ u v, P u → adjB g u v = true → P v) : ∀ fuel s rest,
    (∀ u ∈ s, P u) → ∀ v ∈ (closure g fuel s rest).1, P v := by
  intro fuel
  induction fuel with
  | zero => intro s rest hs v hv; exact hs v hv
  | succ fuel ih =>
    intro s rest hs
    by_cases h : (rest.filter fun v => s.any fun u => adjB g u v).isEmpty = true
    · rw [closure_stop g fuel s rest h]; exact hs
    · rw [closure_go g fuel s rest h]
      refine ih _ _ ?_
      intro v hv
      rcases List.mem_append.mp hv with hvs | hvf
      · exact hs v hvs
      · have hpv := List.of_mem_filter hvf
        simp only [List.any_eq_true] at hpv
        obtain ⟨u, hu, hadj⟩ := hpv
        exact hP u v (hs u hu) hadj

/-- With enough fuel the search reaches a fixpoint: nothing remaining is
adjacent to anything visited. -/
theorem closure_fixpoint (g : FGraph) : ∀ fuel rest s, rest.length ≤ fuel →
    ∀ v ∈ (closure g fuel s rest).2, ∀ u ∈ (closure g fuel s rest).1,
      adjB g u v = false := by
  intro fuel
  induction fuel with
  | zero =>
    intro rest s hle v hv u _
    have hnil : rest = [] := List.eq_nil_of_length_eq_zero (Nat.le_zero.mp hle)
    subst hnil
    simp only [closure] at hv
    exact absurd hv (List.not_mem_nil v)
  | succ fuel ih =>
    intro rest s hle v hv u hu
    by_cases h : (rest.filter fun v => s.any fun u => adjB g u v).isEmpty = true
    · rw [closure_stop g fuel s rest h] at hv hu
      have hfil : (rest.filter fun v => s.any fun u => adjB g u v) = [] :=
        List.isEmpty_iff.mp h
      have hnone := List.filter_eq_nil_iff.mp hfil v hv
      simp only [List.any_eq_true, not_exists, not_and] at hnone
      exact Bool.not_eq_true _ |>.mp fun htrue => hnone u hu htrue
    · rw [closure_go g fuel s rest h] at hv hu
      refine ih _ _ ?_ v hv u hu
      have hperm := List.filter_append_perm
        (fun v => s.any fun u => adjB g u v) rest
      have hlen : (rest.filter fun v => s.any fun u => adjB g u v).length
          + (rest.filter fun v => ! (s.any fun u => adjB g u v)).length
          = rest.length := by
        have := hperm.length_eq
        simpa [List.length_append] using this
      have hpos : 0 < (rest.filter fun v => s.any fun u => adjB g u v).length := by
        have hne : (rest.filter fun v => s.any fun u => adjB g u v) ≠ [] :=
          fun hc => h (by simp [hc])
        exact List.length_pos.mpr hne
      omega

theorem compsAux_spec (g : FGraph) : ∀ fuel rest, rest.length ≤ fuel →
    rest.Nodup → (∀ u ∈ rest, ∀ v, adjB g u v = true → v ∈ rest) →
    List.Perm ((compsAux g fuel rest).map FGraph.nodes).flatten rest ∧
    ∀ c ∈ compsAux g fuel rest, CompOK g rest c := by
  intro fuel
  induction fuel with
  | zero =>
    intro rest hle _ _
    have hnil : rest = [] := List.eq_nil_of_length_eq_zero (Nat.le_zero.mp hle)
    subst hnil
    exact ⟨List.Perm.refl _, fun c hc => absurd hc (List.not_mem_nil c)⟩
  | succ fuel ih =>
    intro rest hle hnd hcl
    match rest, hle, hnd, hcl with
    | [], _, _, _ =>
      exact ⟨List.Perm.refl _, fun c hc => absurd hc (List.not_mem_nil c)⟩
    | r :: rest₀, hle, hnd, hcl =>
      have hperm1 : List.Perm
          ((closure g rest₀.length [r] rest₀).1 ++ (closure g rest₀.length [r] rest₀).2)
          ([r] ++ rest₀) := closure_perm g rest₀.length [r] rest₀
      have hnd2 : ((closure g rest₀.length [r] rest₀).1 ++
          (closure g rest₀.length [r] rest₀).2).Nodup := hnd.perm hperm1.symm
      have hSnd : (closure g rest₀.length [r] rest₀).1.Nodup :=
        (List.nodup_append.mp hnd2).1
      have hRnd : (closure g rest₀.length [r] rest₀).2.Nodup :=
        (List.nodup_append.mp hnd2).2.1
      have hrS : r ∈ (closure g rest₀.length [r] rest₀).1 :=
        closure_seed_subset g rest₀.length [r] rest₀ (List.mem_singleton_self r)
      have hmem : ∀ x, x ∈ (closure g rest₀.length [r] rest₀).1 ∨
          x ∈ (closure g rest₀.length [r] rest₀).2 ↔ x ∈ r :: rest₀ := by
        intro x
        constructor
        · intro hx
          exact hperm1.mem_iff.mp (List.mem_append.mpr hx)
        · intro hx
          exact List.mem_append.mp (hperm1.symm.mem_iff.mp hx)
      have hfix : ∀ v ∈ (closure g rest₀.length [r] rest₀).2,
          ∀ u ∈ (closure g rest₀.length [r] rest₀).1, adjB g u v = false :=
        closure_fixpoint g rest₀.length rest₀ [r] (Nat.le_refl _)
      have hSsub : (closure g rest₀.length [r] rest₀).1 ⊆ r :: rest₀ := by
        intro x hx
        exact (hmem x).mp (Or.inl hx)
      have hRsub : (closure g rest₀.length [r] rest₀).2 ⊆ rest₀ :=
        (closure_rest_sublist g rest₀.length [r] rest₀).subset
      -- closedness of the visited set
      have hSclosed : ∀ u ∈ (closure g rest₀.length [r] rest₀).1, ∀ v,
          adjB g u v = true → v ∈ (closure g rest₀.length [r] rest₀).1 := by
        intro u hu v hadj
        have hv : v ∈ r :: rest₀ := hcl u (hSsub hu) v hadj
        rcases (hmem v).mpr hv with hvS | hvR
        · exact hvS
        · exact absurd hadj (by simp [hfix v hvR u hu])
      -- closedness of the remaining set
      have hRclosed : ∀ u ∈ (closure g rest₀.length [r] rest₀).2, ∀ v,
          adjB g u v = true → v ∈ (closure g rest₀.length [r] rest₀).2 := by
        intro u hu v hadj
        have hv : v ∈ r :: rest₀ := hcl u (List.mem_cons_of_mem r (hRsub hu)) v hadj
        rcases (hmem v).mpr hv with hvS | hvR
        · have := hfix u hu v hvS
          rw [adjB_symm g v u] at this
          exact absurd hadj (by simp [this])
        · exact hvR
      -- connectivity of the visited set from the root
      have hSreach : ∀ v ∈ (closure g rest₀.length [r] rest₀).1, Reach g r v := by
        refine closure_invariant g (Reach g r) ?_ rest₀.length [r] rest₀ ?_
        · intro u v huv hadj
          exact Relation.ReflTransGen.tail huv hadj
        · intro u hu
          rw [List.mem_singleton.mp hu]
          exact Relation.ReflTransGen.refl
      -- fuel for the recursive call
      have hlenR : (closure g rest₀.length [r] rest₀).2.length ≤ fuel := by
        have h1 : rest₀.length ≤ fuel := Nat.lt_succ_iff.mp hle
        exact Nat.le_trans
          (List.Sublist.length_le (closure_rest_sublist g rest₀.length [r] rest₀)) h1
      obtain ⟨ihperm, ihok⟩ := ih (closure g rest₀.length [r] rest₀).2 hlenR hRnd hRclosed
      constructor
      · -- partition property
        simp only [compsAux, List.map_cons, List.flatten_cons, mkSub]
        exact List.Perm.trans (List.Perm.append_left _ ihperm) hperm1
      · -- per-component properties
        intro c hc
        simp only [compsAux, List.mem_cons] at hc
        rcases hc with hc | hc
        · subst hc
          refine ⟨?_, hSnd, hSsub, hSclosed, ⟨r, hrS, hSreach⟩, rfl⟩
          intro hnil
          simp only [mkSub] at hnil
          rw [hnil] at hrS
          exact absurd hrS (List.not_mem_nil r)
        · obtain ⟨hne, hnd', hsub', hclosed', hconn', hedges'⟩ := ihok c hc
          exact ⟨hne, hnd', fun x hx => List.mem_cons_of_mem r (hRsub (hsub' hx)),
            hclosed', hconn', hedges'⟩

theorem comps_spec (g : FGraph) (hwf : g.WF) :
    List.Perm ((connected_component_subgraphs g).map FGraph.nodes).flatten g.nodes ∧
    ∀ c ∈ connected_component_subgraphs g, CompOK g g.nodes c := by
  refine compsAux_spec g g.nodes.length g.nodes (Nat.le_refl _) hwf.1 ?_
  intro u _ v hadj
  exact (adjB_mem g hwf u v hadj).2

theorem comps_pairwise_disjoint (g : FGraph) (hwf : g.WF) :
    (connected_component_subgraphs g).Pairwise
      (fun a b => ∀ x ∈ a.nodes, x ∉ b.nodes) := by
  have hnd : ((connected_component_subgraphs g).map FGraph.nodes).flatten.Nodup :=
    hwf.1.perm (comps_spec g hwf).1.symm
  have hpw := (List.nodup_flatten.mp hnd).2
  rw [List.pairwise_map] at hpw
  exact hpw.imp (fun hab => fun x hx hx2 => hab hx hx2)

theorem mem_eq_of_pairwise {l : List FGraph}
    (hpw : l.Pairwise (fun a b => ∀ x ∈ a.nodes, x ∉ b.nodes))
    {a b : FGraph} (ha : a ∈ l) (hb : b ∈ l) {x : Int}
    (hxa : x ∈ a.nodes) (hxb : x ∈ b.nodes) : a = b := by
  induction l with
  | nil => exact absurd ha (List.not_mem_nil a)
  | cons c l ih =>
    rcases List.mem_cons.mp ha with rfl | ha'
    · rcases List.mem_cons.mp hb with rfl | hb'
      · rfl
      · exact absurd hxb ((List.pairwise_cons.mp hpw).1 b hb' x hxa)
    · rcases List.mem_cons.mp hb with rfl | hb'
      · exact absurd hxa ((List.pairwise_cons.mp hpw).1 a ha' x hxb)
      · exact ih (List.pairwise_cons.mp hpw).2 ha' hb'

theorem union_all_eq_ok {gs : List FGraph} {u : FGraph}
    (h : union_all gs = Except.ok u) : gs ≠ [] ∧ u = unionGraph gs := by
  cases gs with
  | nil => exact absurd h (by simp [union_all])
  | cons a l =>
    refine ⟨by simp, ?_⟩
    simp only [union_all] at h
    injection h with h2
    exact h2.symm

theorem kept_sublist (g : FGraph) (k : Nat) :
    List.Sublist (keptComps g k) (connected_component_subgraphs g) :=
  List.filter_sublist _

theorem mem_unionGraph_nodes {gs : List FGraph} {x : Int} :
    x ∈ (unionGraph gs).nodes ↔ ∃ c ∈ gs, x ∈ c.nodes := by
  simp only [unionGraph, List.mem_flatten, List.mem_map]
  constructor
  · rintro ⟨l, ⟨c, hc, rfl⟩, hx⟩
    exact ⟨c, hc, hx⟩
  · rintro ⟨c, hc, hx⟩
    exact ⟨c.nodes, ⟨c, hc, rfl⟩, hx⟩

theorem mem_unionGraph_edges {gs : List FGraph} {e : Int × Int} :
    e ∈ (unionGraph gs).edges ↔ ∃ c ∈ gs, e ∈ c.edges := by
  simp only [unionGraph, List.mem_flatten, List.mem_map]
  constructor
  · rintro ⟨l, ⟨c, hc, rfl⟩, hx⟩
    exact ⟨c, hc, hx⟩
  · rintro ⟨c, hc, hx⟩
    exact ⟨c.edges, ⟨c, hc, rfl⟩, hx⟩

theorem unionGraph_wf (g : FGraph) (hwf : g.WF) (k : Nat) :
    (unionGraph (keptComps g k)).WF := by
  constructor
  · have hsub : List.Sublist ((keptComps g k).map FGraph.nodes).flatten
        ((connected_component_subgraphs g).map FGraph.nodes).flatten :=
      sublist_flatten ((kept_sublist g k).map FGraph.nodes)
    have hnd : ((connected_component_subgraphs g).map FGraph.nodes).flatten.Nodup :=
      hwf.1.perm (comps_spec g hwf).1.symm
    exact hnd.sublist hsub
  · intro e he
    obtain ⟨c, hc, he₂⟩ := mem_unionGraph_edges.mp he
    have hok := (comps_spec g hwf).2 c ((kept_sublist g k).subset hc)
    rw [hok.2.2.2.2.2] at he₂
    have h1 := List.mem_filter.mp he₂
    have h2 := h1.2
    simp only [Bool.and_eq_true, decide_eq_true_eq] at h2
    exact ⟨mem_unionGraph_nodes.mpr ⟨c, hc, h2.1⟩,
      mem_unionGraph_nodes.mpr ⟨c, hc, h2.2⟩⟩

theorem component_filter_eq (g : FGraph) (k : Nat) :
    component_filter g k = union_all (keptComps g k) := rfl

/-- An adjacency in the union of kept components comes from an
adjacency of `g` and stays inside the kept component of its endpoint. -/
theorem adjB_union_to_g (g : FGraph) (hwf : g.WF) (k : Nat) {c : FGraph}
    (hc : c ∈ keptComps g k) {a b : Int} (ha : a ∈ c.nodes)
    (hadj : adjB (unionGraph (keptComps g k)) a b = true) :
    adjB g a b = true ∧ b ∈ c.nodes := by
  unfold adjB at hadj
  simp only [List.any_eq_true, decide_eq_true_eq] at hadj
  obtain ⟨e, he, hor⟩ := hadj
  obtain ⟨c₂, hc₂, he₂⟩ := mem_unionGraph_edges.mp he
  have hok₂ := (comps_spec g hwf).2 c₂ ((kept_sublist g k).subset hc₂)
  rw [hok₂.2.2.2.2.2] at he₂
  have h1 := List.mem_filter.mp he₂
  have h2 := h1.2
  simp only [Bool.and_eq_true, decide_eq_true_eq] at h2
  have hadjg : adjB g a b = true := by
    unfold adjB
    simp only [List.any_eq_true, decide_eq_true_eq]
    exact ⟨e, h1.1, hor⟩
  have ha₂ : a ∈ c₂.nodes := by
    rcases hor with ⟨hx, _⟩ | ⟨_, hx⟩
    · rw [← hx]; exact h2.1
    · rw [← hx]; exact h2.2
  have hb₂ : b ∈ c₂.nodes := by
    rcases hor with ⟨_, hx⟩ | ⟨hx, _⟩
    · rw [← hx]; exact h2.2
    · rw [← hx]; exact h2.1
  have hceq : c = c₂ := mem_eq_of_pairwise (comps_pairwise_disjoint g hwf)
    ((kept_sublist g k).subset hc) ((kept_sublist g k).subset hc₂) ha ha₂
  rw [hceq]
  exact ⟨hadjg, hb₂⟩

/-- An adjacency of `g` inside a kept component is also an adjacency of
the union of kept components. -/
theorem adjB_g_to_union (g : FGraph) (hwf : g.WF) (k : Nat) {c : FGraph}
    (hc : c ∈ keptComps g k) {a b : Int} (ha : a ∈ c.nodes) (hb : b ∈ c.nodes)
    (hadj : adjB g a b = true) :
    adjB (unionGraph (keptComps g k)) a b = true := by
  unfold adjB at hadj ⊢
  simp only [List.any_eq_true, decide_eq_true_eq] at hadj ⊢
  obtain ⟨e, he, hor⟩ := hadj
  have hok := (comps_spec g hwf).2 c ((kept_sublist g k).subset hc)
  have hein : e ∈ c.edges := by
    rw [hok.2.2.2.2.2]
    refine List.mem_filter.mpr ⟨he, ?_⟩
    simp only [Bool.and_eq_true, decide_eq_true_eq]
    rcases hor with ⟨h1, h2⟩ | ⟨h1, h2⟩
    · constructor
      · rw [h1]; exact ha
      · rw [h2]; exact hb
    · constructor
      · rw [h1]; exact hb
      · rw [h2]; exact ha
  exact ⟨e, mem_unionGraph_edges.mpr ⟨c, hc, hein⟩, hor⟩

/-- Every connected component of the union of the kept components is
(as a node set) one of the kept components. -/
theorem comps_of_kept_union (g : FGraph) (hwf : g.WF) (k : Nat) {c₂ : FGraph}
    (hc₂ : c₂ ∈ connected_component_subgraphs (unionGraph (keptComps g k))) :
    ∃ c ∈ keptComps g k, c.nodes ⊆ c₂.nodes ∧ c₂.nodes ⊆ c.nodes := by
  have hwfU := unionGraph_wf g hwf k
  have hok₂ := (comps_spec (unionGraph (keptComps g k)) hwfU).2 c₂ hc₂
  obtain ⟨r, hrc₂, hreach₂⟩ := hok₂.2.2.2.2.1
  have hrU : r ∈ (unionGraph (keptComps g k)).nodes := hok₂.2.2.1 hrc₂
  obtain ⟨c, hc, hrc⟩ := mem_unionGraph_nodes.mp hrU
  have hokc := (comps_spec g hwf).2 c ((kept_sublist g k).subset hc)
  refine ⟨c, hc, ?_, ?_⟩
  · -- the kept component is contained in the new component
    obtain ⟨r₀, hr₀, hreach₀⟩ := hokc.2.2.2.2.1
    intro v hv
    have hrv : Reach g r v :=
      Relation.ReflTransGen.trans (Reach.symm (hreach₀ r hrc)) (hreach₀ v hv)
    have key : ∀ x : Int, Reach g r x → x ∈ c.nodes ∧ x ∈ c₂.nodes := by
      intro x hx
      induction hx with
      | refl => exact ⟨hrc, hrc₂⟩
      | tail hxy hstep ihx =>
        obtain ⟨hbc, hbc₂⟩ := ihx
        have hyc := hokc.2.2.2.1 _ hbc _ hstep
        have hadjU := adjB_g_to_union g hwf k hc hbc hyc hstep
        have hyc₂ := hok₂.2.2.2.1 _ hbc₂ _ hadjU
        exact ⟨hyc, hyc₂⟩
    exact (key v hrv).2
  · -- the new component is contained in the kept component
    intro v hv
    have hrv : Reach (unionGraph (keptComps g k)) r v := hreach₂ v hv
    have key : ∀ x : Int, Reach (unionGraph (keptComps g k)) r x → x ∈ c.nodes := by
      intro x hx
      induction hx with
      | refl => exact hrc
      | tail hxy hstep ihx =>
        exact (adjB_union_to_g g hwf k hc ihx hstep).2
    exact key v hrv

/-! ## Claim C3: the component filter -/

/-- Claim C3: for every generated forest and configured threshold
`k >= 1`, after the component filter runs, every connected component of
the output has node count at least `k` (inclusive comparison), no
component with fewer than `k` nodes survives, and with `k = 1` the
output graph equals the input forest (as a networkx graph, i.e. same
node and edge sets; `union_all` succeeds whenever the forest is
nonempty). -/
theorem C3_component_filter (g : FGraph) (k : Nat) (hwf : g.WF) (hk : 1 ≤ k) :
    (∀ g', component_filter g k = Except.ok g' →
      ∀ c ∈ connected_component_subgraphs g', k ≤ c.nodes.length ∧ ¬ c.nodes.length < k)
    ∧ (k = 1 → g.nodes ≠ [] →
      ∃ g', component_filter g k = Except.ok g' ∧ GEq g' g) := by
  constructor
  · intro g' hok c₂ hc₂
    have hok' : union_all (keptComps g k) = Except.ok g' := by
      rw [← component_filter_eq]; exact hok
    obtain ⟨_, hU⟩ := union_all_eq_ok hok'
    subst hU
    obtain ⟨c, hc, hsub1, _⟩ := comps_of_kept_union g hwf k hc₂
    have hkc : k ≤ c.nodes.length := by
      have hm := List.mem_filter.mp hc
      simpa using hm.2
    have hnodup : c.nodes.Nodup :=
      ((comps_spec g hwf).2 c ((kept_sublist g k).subset hc)).2.1
    have hlen : c.nodes.length ≤ c₂.nodes.length :=
      (List.subperm_of_subset hnodup hsub1).length_le
    exact ⟨Nat.le_trans hkc hlen, Nat.not_lt.mpr (Nat.le_trans hkc hlen)⟩
  · intro hk1 hne
    subst hk1
    have hall : keptComps g 1 = connected_component_subgraphs g := by
      unfold keptComps
      refine List.filter_eq_self.mpr ?_
      intro c hc
      have hok := (comps_spec g hwf).2 c hc
      have h1 : 1 ≤ c.nodes.length := List.length_pos.mpr hok.1
      simpa using h1
    have hcne : connected_component_subgraphs g ≠ [] := by
      intro hnil
      have hperm := (comps_spec g hwf).1
      rw [hnil] at hperm
      simp only [List.map_nil, List.flatten_nil] at hperm
      exact hne (List.nil_perm.mp hperm)
    refine ⟨unionGraph (keptComps g 1), ?_, ?_⟩
    · rw [component_filter_eq]
      cases hkept : keptComps g 1 with
      | nil => exact absurd (by rw [← hall]; exact hkept) hcne
      | cons a l => rfl
    · rw [hall]
      constructor
      · intro n
        constructor
        · intro hn
          obtain ⟨c, hc, hnc⟩ := mem_unionGraph_nodes.mp hn
          exact ((comps_spec g hwf).2 c hc).2.2.1 hnc
        · intro hn
          have hmem : n ∈ ((connected_component_subgraphs g).map FGraph.nodes).flatten :=
            (comps_spec g hwf).1.symm.subset hn
          obtain ⟨l, hl, hnl⟩ := List.mem_flatten.mp hmem
          obtain ⟨c, hc, rfl⟩ := List.mem_map.mp hl
          exact mem_unionGraph_nodes.mpr ⟨c, hc, hnl⟩
      · intro e
        constructor
        · intro he
          obtain ⟨c, hc, hec⟩ := mem_unionGraph_edges.mp he
          have hok := (comps_spec g hwf).2 c hc
          rw [hok.2.2.2.2.2] at hec
          exact (List.mem_filter.mp hec).1
        · intro he
          have he1 : e.1 ∈ g.nodes := (hwf.2 e he).1
          have hmem : e.1 ∈ ((connected_component_subgraphs g).map FGraph.nodes).flatten :=
            (comps_spec g hwf).1.symm.subset he1
          obtain ⟨l, hl, hnl⟩ := List.mem_flatten.mp hmem
          obtain ⟨c, hc, rfl⟩ := List.mem_map.mp hl
          have hok := (comps_spec g hwf).2 c hc
          have hadj : adjB g e.1 e.2 = true := by
            unfold adjB
            simp only [List.any_eq_true, decide_eq_true_eq]
            exact ⟨e, he, Or.inl ⟨rfl, rfl⟩⟩
          have he2 : e.2 ∈ c.nodes := hok.2.2.2.1 e.1 hnl e.2 hadj
          refine mem_unionGraph_edges.mpr ⟨c, hc, ?_⟩
          rw [hok.2.2.2.2.2]
          refine List.mem_filter.mpr ⟨he, ?_⟩
          simp only [Bool.and_eq_true, decide_eq_true_eq]
          exact ⟨hnl, he2⟩

/-- Witness for C3 at the concrete two-node forest with one edge and
threshold 1. -/
theorem C3_component_filter_witness :
    FGraph.WF gC3W ∧ 1 ≤ 1 ∧
    (∀ c ∈ connected_component_subgraphs gC3W,
      1 ≤ c.nodes.length ∧ ¬ c.nodes.length < 1) :=
  ⟨by decide, by decide,
    (C3_component_filter gC3W 1 (by decide) (by decide)).1 gC3W rfl⟩

/-! ## Claim C4: all components below the threshold -/

/-- Claim C4 (refuting evaluation): on a forest whose only connected
component has a single node, with configured minimum 2, the component
filter does not produce a zero-node graph: `nx.union_all` is handed the
empty component list and raises.  (The spec requires a zero-node graph
and no error.) -/
theorem C4_empty_filter_raises :
    component_filter gC4 2 = Except.error NxError.unionAllEmpty ∧
    (∀ c ∈ connected_component_subgraphs gC4, c.nodes.length < 2) := by
  constructor
  · rfl
  · decide

/-! ## More dict-lookup lemmas -/

theorem dlookup_mem {α β : Type} [DecidableEq α] :
    ∀ (l : List (α × β)) (k : α) (v : β), dlookup l k = some v → (k, v) ∈ l := by
  intro l
  induction l with
  | nil => intro k v h; exact absurd h (by simp [dlookup])
  | cons p l ih =>
    intro k v h
    cases hrec : dlookup l k with
    | some w =>
      simp only [dlookup, hrec] at h
      exact List.mem_cons_of_mem p (ih k v (hrec.trans h))
    | none =>
      simp only [dlookup, hrec] at h
      by_cases hk : p.1 = k
      · rw [if_pos hk] at h
        have hv : p.2 = v := Option.some.inj h
        have hp : p = (k, v) := by
          cases p
          cases hk
          cases hv
          rfl
        rw [hp]
        exact List.mem_cons_self _ _
      · rw [if_neg hk] at h
        exact absurd h (by simp)

theorem dlookup_exists_of_mem_keys {α β : Type} [DecidableEq α] :
    ∀ (l : List (α × β)) (k : α), k ∈ l.map Prod.fst →
    ∃ v, dlookup l k = some v := by
  intro l
  induction l with
  | nil => intro k h; exact absurd h (by simp)
  | cons p l ih =>
    intro k h
    cases hrec : dlookup l k with
    | some w => exact ⟨w, by simp [dlookup, hrec]⟩
    | none =>
      simp only [List.map_cons, List.mem_cons] at h
      rcases h with rfl | hm
      · exact ⟨p.2, by simp [dlookup, hrec]⟩
      · obtain ⟨v, hv⟩ := ih k hm
        rw [hv] at hrec
        exact absurd hrec (by simp)

theorem dlookup_map_keys {α β : Type} [DecidableEq α] (f : α → α) :
    ∀ (l : List (α × β)) (k : α),
    (∀ p ∈ l, f p.1 = f k → p.1 = k) →
    dlookup (l.map fun p => (f p.1, p.2)) (f k) = dlookup l k := by
  intro l
  induction l with
  | nil => intro k _; rfl
  | cons p l ih =>
    intro k hinj
    simp only [List.map_cons, dlookup]
    rw [ih k fun q hq => hinj q (List.mem_cons_of_mem p hq)]
    cases hd : dlookup l k with
    | some v => rfl
    | none =>
      by_cases hk : p.1 = k
      · rw [if_pos hk, if_pos (by rw [hk])]
      · rw [if_neg hk, if_neg fun hc => hk (hinj p (List.mem_cons_self p l) hc)]

/-! ## Claim C8: the generation dispatcher -/

/-- Claim C8: a configuration naming a strategy that is not a key of
the fixed registry fails the dispatch with `ConfigurationError`. -/
theorem C8_unknown_strategy (name : String)
    (h : name ∉ ALGOS.map Prod.fst) :
    dispatch_network_algo name = Except.error ConfigErr.configurationError := by
  unfold dispatch_network_algo
  rw [dlookup_eq_none ALGOS name h]

/-- Witness for C8 at the concrete unknown strategy name. -/
theorem C8_unknown_strategy_witness :
    dispatch_network_algo ("min_spanning_tree")
      = Except.error ConfigErr.configurationError :=
  C8_unknown_strategy ("min_spanning_tree") (by decide)

/-! ## Claim C9: the projection resolver -/

/-- Claim C9: a non-empty coordinate sequence lying entirely within
[-180, 180] x [-90, 90] resolves to the geographic reference; a
non-empty sequence with a coordinate outside that range resolves to the
planar reference; the empty sequence fails with `InvalidInputError`. -/
theorem C9_resolver (coords : List (ℚ × ℚ)) :
    (coords ≠ [] →
      (∀ c ∈ coords, -180 ≤ c.1 ∧ c.1 ≤ 180 ∧ -90 ≤ c.2 ∧ c.2 ≤ 90) →
      get_default_proj4 coords = Except.ok Proj.latlong) ∧
    (coords ≠ [] →
      (∃ c ∈ coords, ¬(-180 ≤ c.1 ∧ c.1 ≤ 180 ∧ -90 ≤ c.2 ∧ c.2 ≤ 90)) →
      get_default_proj4 coords = Except.ok Proj.flatEarth) ∧
    (coords = [] →
      get_default_proj4 coords = Except.error ResolverErr.invalidInput) := by
  refine ⟨?_, ?_, ?_⟩
  · intro hne hall
    have hie : coords.isEmpty = false := by
      cases coords with
      | nil => exact absurd rfl hne
      | cons a l => rfl
    have hb : (coords.all fun c =>
        decide (-180 ≤ c.1 ∧ c.1 ≤ 180 ∧ -90 ≤ c.2 ∧ c.2 ≤ 90)) = true := by
      rw [List.all_eq_true]
      intro c hc
      exact decide_eq_true (hall c hc)
    simp only [get_default_proj4, is_in_lon_lat, hie, Bool.false_eq_true,
      if_false, hb, if_true]
  · intro hne hex
    have hie : coords.isEmpty = false := by
      cases coords with
      | nil => exact absurd rfl hne
      | cons a l => rfl
    obtain ⟨c, hc, hout⟩ := hex
    have hb : (coords.all fun c =>
        decide (-180 ≤ c.1 ∧ c.1 ≤ 180 ∧ -90 ≤ c.2 ∧ c.2 ≤ 90)) = false := by
      rw [← Bool.not_eq_true, List.all_eq_true]
      intro hallc
      exact hout (of_decide_eq_true (hallc c hc))
    simp only [get_default_proj4, is_in_lon_lat, hie, Bool.false_eq_true,
      if_false, hb]
  · intro hnil
    subst hnil
    rfl

/-- Witness for C9 at concrete coordinate sequences: a degree-like
sequence resolves geographic and an out-of-range sequence resolves
planar. -/
theorem C9_resolver_witness :
    get_default_proj4 [((10 : ℚ), (45 : ℚ)), ((-73 : ℚ), (40 : ℚ))]
      = Except.ok Proj.latlong ∧
    get_default_proj4 [((500000 : ℚ), (4649776 : ℚ))]
      = Except.ok Proj.flatEarth :=
  ⟨(C9_resolver _).1 (by decide) (by decide),
   (C9_resolver _).2.1 (by decide)
     ⟨((500000 : ℚ), (4649776 : ℚ)), by decide, by decide⟩⟩

/-! ## Claim C5: the existing-network namespacer -/

/-- Claim C5 counterexample: with an existing network whose node
identifiers `1` (an integer) and `"1"` (a string) have the same `str()`
rendering, both are relabeled to `'grid-1'`, the re-keyed coordinate
dict keeps only the later binding, and the relabeled node `'grid-1'`
no longer maps to the original coordinate of node `1` — so it is not
true that for every existing network every relabeled node still maps to
its original coordinate. -/
theorem C5_counterexample :
    dlookup exC5.coords (PyId.int 1) = some ((1 : ℚ), (1 : ℚ)) ∧
    dlookup (namespaceExisting exC5).coords (gridId (PyId.int 1))
      = some ((2 : ℚ), (2 : ℚ)) ∧
    ¬ dlookup (namespaceExisting exC5).coords (gridId (PyId.int 1))
      = some ((1 : ℚ), (1 : ℚ)) := by decide

/-- Claim C5 (amended): the namespaced identifiers are disjoint from
every integer demand identifier, and — provided the `str()` renderings
of the existing coordinate keys are pairwise distinct (e.g. all-integer
identifiers, where `str` is injective) — the coordinate dict is re-keyed
by exactly the relabeling, so every relabeled node still maps to its
original coordinate. -/
theorem C5_namespacer (ex : ExGraph)
    (hinj : ∀ p ∈ ex.coords, ∀ q ∈ ex.coords, pyStr p.1 = pyStr q.1 → p.1 = q.1) :
    (∀ n ∈ ex.nodes, ∀ i : Int, gridId n ≠ PyId.int i) ∧
    (∀ n c, dlookup ex.coords n = some c →
      dlookup (namespaceExisting ex).coords (gridId n) = some c) := by
  constructor
  · intro n _ i h
    exact PyId.noConfusion h
  · intro n c h
    have hmem : (n, c) ∈ ex.coords := dlookup_mem ex.coords n c h
    have hl : dlookup (ex.coords.map fun p => (gridId p.1, p.2)) (gridId n)
        = dlookup ex.coords n := by
      refine dlookup_map_keys gridId ex.coords n ?_
      intro p hp hgrid
      have h2 : ("grid-" ++ pyStr p.1) = ("grid-" ++ pyStr n) := by
        simpa [gridId] using hgrid
      have h3 := congrArg String.data h2
      simp only [String.data_append] at h3
      exact hinj p hp (n, c) hmem (String.ext (List.append_cancel_left h3))
    rw [← h, ← hl]
    rfl

/-- Witness for the amended C5 at a concrete two-node existing network
with integer identifiers. -/
theorem C5_namespacer_witness :
    (∀ i : Int, gridId (PyId.int 1) ≠ PyId.int i) ∧
    dlookup (namespaceExisting exC5W).coords (gridId (PyId.int 1))
      = some ((1 : ℚ), (2 : ℚ)) :=
  ⟨fun i => (C5_namespacer exC5W (by decide)).1 (PyId.int 1) (by decide) i,
   (C5_namespacer exC5W (by decide)).2 (PyId.int 1) ((1 : ℚ), (2 : ℚ)) (by decide)⟩

/-! ## Claim C1: the identifier realigner -/

/-- Claim C1 counterexample: when the filtered graph carries a numpy
integer node id (as the source comments say the filtering can produce),
the key of the realigned coordinate dict is `i + 1` without the `int()`
coercion, so it is still a numpy value — not every remapped identifier
(with the coordinate keys included) is normalized to a plain native
integer. -/
theorem C1_counterexample :
    (realignCoords [((0 : Int), ((5 : ℚ), (6 : ℚ)))]
        [⟨0, false⟩]).map Prod.fst = [⟨1, false⟩] ∧
    (PyInt.mk 1 false).native = false := by decide

theorem demandGraphIds_length (store : List DemandStoreNode) :
    (demandGraphIds store).length = store.length := by
  simp [demandGraphIds]

/-- Claim C1 (amended): the realigner maps every surviving node id `i`
to store id `i + 1`; that map is injective (a bijection onto the
realigned ids) and the coordinate dict is re-keyed by the same
value-level map; round-tripping a store node through the demand graph
builder (0-based position) and the realigner recovers its original
1-based store id; the relabeled graph's node ids are coerced to plain
native integers, while the coordinate keys keep the numeric type of the
incoming id. -/
theorem C1_realigner (store : List DemandStoreNode) (fn : List PyInt)
    (oc : List (Int × (ℚ × ℚ))) :
    (∀ i ∈ fn, ∀ j ∈ fn, realignId i = realignId j → i.val = j.val) ∧
    (∀ i ∈ fn, (realignId i).val = i.val + 1 ∧ (realignId i).native = true) ∧
    ((realignCoords oc fn).map (fun p => p.1.val) = fn.map fun i => i.val + 1) ∧
    (∀ pos : Nat, pos < store.length →
      realignId ((demandGraphIds store).getD pos ⟨0, true⟩)
        = ⟨Int.ofNat pos + 1, true⟩) := by
  refine ⟨?_, ?_, ?_, ?_⟩
  · intro i _ j _ h
    have := congrArg PyInt.val h
    simp only [realignId] at this
    omega
  · intro i _
    exact ⟨rfl, rfl⟩
  · simp [realignCoords, pyAdd1]
  · intro pos hpos
    have hlen : pos < (demandGraphIds store).length := by
      rw [demandGraphIds_length]; exact hpos
    rw [List.getD_eq_getElem _ _ hlen]
    have : (demandGraphIds store)[pos] = ⟨Int.ofNat pos, true⟩ := by
      simp [demandGraphIds]
    rw [this]
    rfl

/-- Witness for the amended C1: the second store record (0-based
position 1) gets graph id 1 and realigns to its store id 2, as a plain
native integer. -/
theorem C1_realigner_witness :
    realignId ((demandGraphIds
        [⟨((0 : ℚ), (0 : ℚ)), Budget.fin 3⟩,
         ⟨((1 : ℚ), (1 : ℚ)), Budget.fin 4⟩]).getD 1 ⟨0, true⟩)
      = ⟨2, true⟩ :=
  (C1_realigner
    [⟨((0 : ℚ), (0 : ℚ)), Budget.fin 3⟩, ⟨((1 : ℚ), (1 : ℚ)), Budget.fin 4⟩]
    [] []).2.2.2 1 (by decide)

/-! ## The topology persister: supporting lemmas -/

theorem procEdge_cases (m : MsfGraph) (snid : Nat) (e : Int × Int) :
    ((isInfBudget m e.1 && isInfBudget m e.2) = false ∧
      procEdge m snid e = (([e.1, e.2].filter fun n => isInfBudget m n).map
          fun n => FakeRec.mk n (dlookup m.coords n),
        some ⟨e.1, e.2, snid, edgeWeight m e, false⟩, none)) ∨
    ((isInfBudget m e.1 && isInfBudget m e.2) = true ∧
      procEdge m snid e = (([e.1, e.2].filter fun n => isInfBudget m n).map
          fun n => FakeRec.mk n (dlookup m.coords n),
        none, some StoreErr.structuralIntegrity)) := by
  cases h1 : isInfBudget m e.1 <;> cases h2 : isInfBudget m e.2 <;>
    simp [procEdge, h1, h2]

theorem store_networks_propSegs (m : MsfGraph) (ex : Option ExGraph) :
    (store_networks m ex).1.propSegs
      = (procComps m (exSubnetId + 1) (connected_component_subgraphs m.graph)).2.1 := by
  unfold store_networks
  rcases procComps m (exSubnetId + 1) (connected_component_subgraphs m.graph)
    with ⟨frs, pss, err⟩
  rfl

theorem store_networks_fakeRecs (m : MsfGraph) (ex : Option ExGraph) :
    (store_networks m ex).1.fakeRecs
      = (procComps m (exSubnetId + 1) (connected_component_subgraphs m.graph)).1 := by
  unfold store_networks
  rcases procComps m (exSubnetId + 1) (connected_component_subgraphs m.graph)
    with ⟨frs, pss, err⟩
  rfl

theorem store_networks_err (m : MsfGraph) (ex : Option ExGraph) :
    (store_networks m ex).2
      = (procComps m (exSubnetId + 1) (connected_component_subgraphs m.graph)).2.2 := by
  unfold store_networks
  rcases procComps m (exSubnetId + 1) (connected_component_subgraphs m.graph)
    with ⟨frs, pss, err⟩
  rfl

theorem store_networks_exSegs (m : MsfGraph) (ex : ExGraph) :
    (store_networks m (some ex)).1.exSegs
      = if ex.nodes.isEmpty then [] else existingPass ex := by
  unfold store_networks
  rcases procComps m (exSubnetId + 1) (connected_component_subgraphs m.graph)
    with ⟨frs, pss, err⟩
  rfl

theorem procEdges_segs (m : MsfGraph) (snid : Nat) :
    ∀ es, ∀ s ∈ (procEdges m snid es).2.1,
      s.subnet_id = snid ∧ s.is_existing = false ∧
      (isInfBudget m s.node1 && isInfBudget m s.node2) = false := by
  intro es
  induction es with
  | nil => intro s hs; exact absurd hs (by simp [procEdges])
  | cons e es ih =>
    intro s hs
    rcases procEdge_cases m snid e with ⟨hb, hpe⟩ | ⟨hb, hpe⟩
    · rcases hrec : procEdges m snid es with ⟨rs, ss, er⟩
      simp only [procEdges, hpe, hrec] at hs
      rcases List.mem_append.mp hs with hs1 | hs2
      · have hseq : s = ⟨e.1, e.2, snid, edgeWeight m e, false⟩ := by
          simpa using hs1
        subst hseq
        exact ⟨rfl, rfl, hb⟩
      · have := ih s (by rw [hrec]; exact hs2)
        exact this
    · simp only [procEdges, hpe] at hs
      exact absurd hs (List.not_mem_nil s)

theorem procEdges_err_none (m : MsfGraph) (snid : Nat) :
    ∀ es, (procEdges m snid es).2.2 = none ↔
      ∀ e ∈ es, (isInfBudget m e.1 && isInfBudget m e.2) = false := by
  intro es
  induction es with
  | nil => simp [procEdges]
  | cons e es ih =>
    rcases procEdge_cases m snid e with ⟨hb, hpe⟩ | ⟨hb, hpe⟩
    · rcases hrec : procEdges m snid es with ⟨rs, ss, er⟩
      simp only [procEdges, hpe, hrec]
      rw [hrec] at ih
      constructor
      · intro her f hf
        rcases List.mem_cons.mp hf with rfl | hf'
        · exact hb
        · exact (ih.mp her) f hf'
      · intro hall
        exact ih.mpr fun f hf => hall f (List.mem_cons_of_mem e hf)
    · simp only [procEdges, hpe]
      constructor
      · intro her
        exact absurd her (by simp)
      · intro hall
        exact absurd hb (by simp [hall e (List.mem_cons_self e es)])

theorem procComps_segs (m : MsfGraph) :
    ∀ cs snid, ∀ s ∈ (procComps m snid cs).2.1,
      snid ≤ s.subnet_id ∧ s.is_existing = false ∧
      (isInfBudget m s.node1 && isInfBudget m s.node2) = false := by
  intro cs
  induction cs with
  | nil => intro snid s hs; exact absurd hs (by simp [procComps])
  | cons c cs ih =>
    intro snid s hs
    rcases hpe : procEdges m snid c.edges with ⟨rs, ss, er⟩
    cases er with
    | some err =>
      simp only [procComps, hpe] at hs
      have := procEdges_segs m snid c.edges s (by rw [hpe]; exact hs)
      exact ⟨Nat.le_of_eq this.1.symm, this.2⟩
    | none =>
      rcases hrc : procComps m (snid + 1) cs with ⟨rs₂, ss₂, er₂⟩
      simp only [procComps, hpe, hrc] at hs
      rcases List.mem_append.mp hs with hs1 | hs2
      · have := procEdges_segs m snid c.edges s (by rw [hpe]; exact hs1)
        exact ⟨Nat.le_of_eq this.1.symm, this.2⟩
      · have := ih (snid + 1) s (by rw [hrc]; exact hs2)
        exact ⟨Nat.le_trans (Nat.le_succ snid) this.1, this.2⟩

theorem procComps_err_none (m : MsfGraph) :
    ∀ cs snid, (procComps m snid cs).2.2 = none ↔
      ∀ c ∈ cs, ∀ e ∈ c.edges,
        (isInfBudget m e.1 && isInfBudget m e.2) = false := by
  intro cs
  induction cs with
  | nil => intro snid; simp [procComps]
  | cons c cs ih =>
    intro snid
    rcases hpe : procEdges m snid c.edges with ⟨rs, ss, er⟩
    cases er with
    | some err =>
      simp only [procComps, hpe]
      constructor
      · intro her
        exact absurd her (by simp)
      · intro hall
        have h1 : (procEdges m snid c.edges).2.2 = none :=
          (procEdges_err_none m snid c.edges).mpr
            (hall c (List.mem_cons_self c cs))
        rw [hpe] at h1
        exact absurd h1 (by simp)
    | none =>
      rcases hrc : procComps m (snid + 1) cs with ⟨rs₂, ss₂, er₂⟩
      simp only [procComps, hpe, hrc]
      have h1 : ∀ e ∈ c.edges, (isInfBudget m e.1 && isInfBudget m e.2) = false := by
        have := (procEdges_err_none m snid c.edges).mp (by rw [hpe])
        exact this
      have ih' := ih (snid + 1)
      rw [hrc] at ih'
      constructor
      · intro her c₂ hc₂ e he
        rcases List.mem_cons.mp hc₂ with rfl | hc₂'
        · exact h1 e he
        · exact (ih'.mp her) c₂ hc₂' e he
      · intro hall
        exact ih'.mpr fun c₂ hc₂ e he => hall c₂ (List.mem_cons_of_mem c hc₂) e he

/-! ## Claim C2: at most one synthetic endpoint per segment -/

/-- Claim C2: every proposed segment the persister adds to the store
references at most one infinite-budget endpoint, and for any input edge
of the (well-formed) filtered graph whose two endpoints both have
infinite budget, the run aborts with the structural-integrity error
(the `assert i <= 1` of `_store_networks`, `StructuralIntegrityError`
in the spec's taxonomy). -/
theorem C2_structural_invariant (m : MsfGraph) (ex : Option ExGraph)
    (hwf : m.graph.WF) :
    (∀ s ∈ (store_networks m ex).1.propSegs,
      ¬(isInfBudget m s.node1 = true ∧ isInfBudget m s.node2 = true)) ∧
    ((∃ e ∈ m.graph.edges,
        isInfBudget m e.1 = true ∧ isInfBudget m e.2 = true) →
      (store_networks m ex).2 = some StoreErr.structuralIntegrity) := by
  constructor
  · intro s hs
    rw [store_networks_propSegs] at hs
    have := (procComps_segs m (connected_component_subgraphs m.graph)
      (exSubnetId + 1) s hs).2.2
    intro ⟨h1, h2⟩
    rw [h1, h2] at this
    exact absurd this (by simp)
  · intro ⟨e, he, hbad⟩
    rw [store_networks_err]
    -- the bad edge lies in some component subgraph
    have he1 : e.1 ∈ m.graph.nodes := (hwf.2 e he).1
    have hmem : e.1 ∈ ((connected_component_subgraphs m.graph).map FGraph.nodes).flatten :=
      (comps_spec m.graph hwf).1.symm.subset he1
    obtain ⟨l, hl, hnl⟩ := List.mem_flatten.mp hmem
    obtain ⟨c, hc, rfl⟩ := List.mem_map.mp hl
    have hok := (comps_spec m.graph hwf).2 c hc
    have hadj : adjB m.graph e.1 e.2 = true := by
      unfold adjB
      simp only [List.any_eq_true, decide_eq_true_eq]
      exact ⟨e, he, Or.inl ⟨rfl, rfl⟩⟩
    have he2 : e.2 ∈ c.nodes := hok.2.2.2.1 e.1 hnl e.2 hadj
    have hec : e ∈ c.edges := by
      rw [hok.2.2.2.2.2]
      refine List.mem_filter.mpr ⟨he, ?_⟩
      simp only [Bool.and_eq_true, decide_eq_true_eq]
      exact ⟨hnl, he2⟩
    -- hence the error is set
    cases her : (procComps m (exSubnetId + 1)
        (connected_component_subgraphs m.graph)).2.2 with
    | none =>
      have := (procComps_err_none m (connected_component_subgraphs m.graph)
        (exSubnetId + 1)).mp her c hc e hec
      rw [hbad.1, hbad.2] at this
      exact absurd this (by simp)
    | some err =>
      cases err
      rfl

/-- Witness for C2 at a concrete graph whose single edge joins two
infinite-budget endpoints: the run aborts with the structural error. -/
theorem C2_structural_invariant_witness :
    (store_networks msfC2W none).2 = some StoreErr.structuralIntegrity :=
  (C2_structural_invariant msfC2W none (by decide)).2
    ⟨((1 : Int), (2 : Int)), by decide, by decide, by decide⟩

/-! ## Claim C6: synthetic node records -/

/-- Claim C6 (refuting evaluation): a synthetic (infinite-budget) node
incident to two surviving edges gets one fake-node record added per
incident edge — two records carrying the same id 1 — and the run
completes without error, while the spec requires exactly one
SyntheticNode record per synthetic node. -/
theorem C6_duplicate_fake_records :
    ((store_networks msfC6 none).1.fakeRecs.filter fun r => r.id == 1).length = 2 ∧
    (store_networks msfC6 none).2 = none := by decide

/-! ## Claim C7: the existing pass -/

/-- Claim C7: with a loaded existing network, the existing pass emits
exactly one segment per edge of the namespaced existing graph, each
with `is_existing = true` and the existing edge weight, all under the
one dedicated subnet; no proposed segment shares that subnet, and the
emitted existing segments do not depend on the proposed forest. -/
theorem C7_existing_pass (ex : ExGraph) (hwf : ExGraph.WF ex) (m : MsfGraph) :
    ((store_networks m (some ex)).1.exSegs
      = ex.edges.map fun e => ExSeg.mk e.u e.v exSubnetId e.w true) ∧
    (store_networks m (some ex)).1.exSegs.length = ex.edges.length ∧
    (∀ s ∈ (store_networks m (some ex)).1.exSegs,
      s.is_existing = true ∧ s.subnet_id = exSubnetId ∧ s.weight ∈ ex.edges.map ExEdge.w) ∧
    (∀ m₂ : MsfGraph,
      (store_networks m (some ex)).1.exSegs
        = (store_networks m₂ (some ex)).1.exSegs) ∧
    (∀ p ∈ (store_networks m (some ex)).1.propSegs, p.subnet_id ≠ exSubnetId) := by
  have hmain : (store_networks m (some ex)).1.exSegs
      = ex.edges.map fun e => ExSeg.mk e.u e.v exSubnetId e.w true := by
    rw [store_networks_exSegs]
    by_cases hne : ex.nodes.isEmpty = true
    · have hnil : ex.nodes = [] := List.isEmpty_iff.mp hne
      have hed : ex.edges = [] := by
        cases hed : ex.edges with
        | nil => rfl
        | cons f fs =>
          have := (hwf f (by rw [hed]; exact List.mem_cons_self f fs)).1
          rw [hnil] at this
          exact absurd this (List.not_mem_nil f.u)
      rw [if_pos hne, hed]
      rfl
    · rw [if_neg hne]
      rfl
  refine ⟨hmain, ?_, ?_, ?_, ?_⟩
  · rw [hmain, List.length_map]
  · intro s hs
    rw [hmain] at hs
    obtain ⟨e, he, rfl⟩ := List.mem_map.mp hs
    exact ⟨rfl, rfl, List.mem_map.mpr ⟨e, he, rfl⟩⟩
  · intro m₂
    rw [hmain]
    have hmain₂ : (store_networks m₂ (some ex)).1.exSegs
        = ex.edges.map fun e => ExSeg.mk e.u e.v exSubnetId e.w true := by
      rw [store_networks_exSegs]
      by_cases hne : ex.nodes.isEmpty = true
      · have hnil : ex.nodes = [] := List.isEmpty_iff.mp hne
        have hed : ex.edges = [] := by
          cases hed : ex.edges with
          | nil => rfl
          | cons f fs =>
            have := (hwf f (by rw [hed]; exact List.mem_cons_self f fs)).1
            rw [hnil] at this
            exact absurd this (List.not_mem_nil f.u)
        rw [if_pos hne, hed]
        rfl
      · rw [if_neg hne]
        rfl
    rw [hmain₂]
  · intro p hp
    rw [store_networks_propSegs] at hp
    have := (procComps_segs m (connected_component_subgraphs m.graph)
      (exSubnetId + 1) p hp).1
    omega

/-- Witness for C7: a one-edge existing network yields exactly one
existing segment, whatever proposed forest is persisted with it. -/
theorem C7_existing_pass_witness :
    (store_networks msfC6 (some exC7W)).1.exSegs.length = 1 :=
  (C7_existing_pass exC7W (by decide) msfC6).2.1

/-! ## Claim C10: `dataset_store_to_geograph` -/

theorem mapExcept_ok_mem {α β ε : Type} (f : α → Except ε β) :
    ∀ (l : List α) (ys : List β), mapExcept f l = Except.ok ys →
    ∀ y ∈ ys, ∃ x ∈ l, f x = Except.ok y := by
  intro l
  induction l with
  | nil =>
    intro ys h y hy
    simp only [mapExcept] at h
    injection h with h2
    rw [← h2] at hy
    exact absurd hy (List.not_mem_nil y)
  | cons x xs ih =>
    intro ys h y hy
    cases hfx : f x with
    | error e =>
      simp only [mapExcept, hfx] at h
      exact absurd h (by simp)
    | ok b =>
      cases hrec : mapExcept f xs with
      | error e =>
        simp only [mapExcept, hfx, hrec] at h
        exact absurd h (by simp)
      | ok bs =>
        simp only [mapExcept, hfx, hrec] at h
        injection h with h2
        rw [← h2] at hy
        rcases List.mem_cons.mp hy with rfl | hy'
        · exact ⟨x, List.mem_cons_self x xs, hfx⟩
        · obtain ⟨x', hx', hfx'⟩ := ih bs hrec y hy'
          exact ⟨x', List.mem_cons_of_mem x hx', hfx'⟩

theorem mapExcept_attr_keys {α β γ ε : Type} (f : α → Except ε β) (gval : α → γ) :
    ∀ (l : List α) (ys : List β) (zs : List (β × γ)),
    mapExcept f l = Except.ok ys →
    mapExcept (fun x => (f x).map fun y => (y, gval x)) l = Except.ok zs →
    zs.map Prod.fst = ys := by
  intro l
  induction l with
  | nil =>
    intro ys zs h1 h2
    simp only [mapExcept] at h1 h2
    injection h1 with h1
    injection h2 with h2
    rw [← h1, ← h2]
    rfl
  | cons x xs ih =>
    intro ys zs h1 h2
    cases hfx : f x with
    | error e =>
      simp only [mapExcept, hfx] at h1
      exact absurd h1 (by simp)
    | ok y =>
      cases hrec : mapExcept f xs with
      | error e =>
        simp only [mapExcept, hfx, hrec] at h1
        exact absurd h1 (by simp)
      | ok ys' =>
        simp only [mapExcept, hfx, hrec] at h1
        cases hrec2 : mapExcept (fun x => (f x).map fun y => (y, gval x)) xs with
        | error e =>
          simp only [mapExcept, hfx, Except.map] at h2
          simp only [Except.map] at hrec2
          rw [hrec2] at h2
          exact absurd h2 (by simp)
        | ok zs' =>
          simp only [mapExcept, hfx, Except.map] at h2
          simp only [Except.map] at hrec2
          rw [hrec2] at h2
          injection h1 with h1
          injection h2 with h2
          rw [← h1, ← h2]
          simp only [List.map_cons]
          rw [ih ys' zs' hrec (by simp only [Except.map]; exact hrec2)]

theorem enumKeyed_keys_ge {α β : Type} (f : α → β) :
    ∀ (l : List α) (n : Nat), ∀ p ∈ enumKeyed f n l, n ≤ p.1 := by
  intro l
  induction l with
  | nil => intro n p hp; exact absurd hp (List.not_mem_nil p)
  | cons x xs ih =>
    intro n p hp
    rcases List.mem_cons.mp hp with rfl | hp'
    · exact Nat.le_refl n
    · exact Nat.le_trans (Nat.le_succ n) (ih (n + 1) p hp')

theorem enumKeyed_dlookup {α β : Type} (f : α → β) :
    ∀ (l : List α) (n i : Nat) (h : i < l.length),
    dlookup (enumKeyed f n l) (n + i) = some (f (l.get ⟨i, h⟩)) := by
  intro l
  induction l with
  | nil => intro n i h; exact absurd h (Nat.not_lt_zero i)
  | cons x xs ih =>
    intro n i h
    cases i with
    | zero =>
      have hnone : dlookup (enumKeyed f (n + 1) xs) n = none := by
        apply dlookup_eq_none
        intro hk
        obtain ⟨p, hp, hpk⟩ := List.mem_map.mp hk
        have := enumKeyed_keys_ge f xs (n + 1) p hp
        omega
      simp [enumKeyed, dlookup, hnone]
    | succ j =>
      have hkey : n + (j + 1) = (n + 1) + j := by omega
      have hj : j < xs.length := Nat.lt_of_succ_lt_succ h
      have hrec := ih (n + 1) j hj
      rw [← hkey] at hrec
      simp [enumKeyed, dlookup, hrec]

/-- Claim C10: the conversion returns a graph whose nodes are exactly
the store nodes — real then fake, each with its coordinate and budget —
and whose edges come only from segments with `is_existing = false`;
every edge of the result carries the attribute `is_existing = false`. -/
theorem C10_store_to_geograph (st : DStore) (G : OutGraph)
    (hok : dataset_store_to_geograph st = Except.ok G) :
    List.Perm (allStoreNodes st) st.nodes ∧
    G.nodes = List.range (allStoreNodes st).length ∧
    (∀ pos : Nat, ∀ h : pos < (allStoreNodes st).length,
      dlookup G.coords pos = some ((allStoreNodes st).get ⟨pos, h⟩).coord ∧
      dlookup G.budgets pos = some ((allStoreNodes st).get ⟨pos, h⟩).metric) ∧
    (∀ e ∈ G.edges, ∃ s ∈ st.segments, s.is_existing = false ∧
      segToNx st s = Except.ok e) ∧
    (∀ e ∈ G.edges, dlookup G.edge_is_existing e = some false) := by
  cases h1 : mapExcept (segToNx st) (st.cycleSegments false) with
  | error e =>
    unfold dataset_store_to_geograph at hok
    rw [h1] at hok
    exact absurd hok (by simp)
  | ok edges =>
  cases h2 : mapExcept (fun s => (segToNx st s).map fun e => (e, s.weight))
      (st.cycleSegments false) with
  | error e =>
    unfold dataset_store_to_geograph at hok
    rw [h1, h2] at hok
    exact absurd hok (by simp)
  | ok ws =>
  cases h3 : mapExcept (fun s => (segToNx st s).map fun e => (e, s.is_existing))
      (st.cycleSegments false) with
  | error e =>
    unfold dataset_store_to_geograph at hok
    rw [h1, h2, h3] at hok
    exact absurd hok (by simp)
  | ok ise =>
  cases h4 : mapExcept (fun s => (segToNx st s).map fun e => (e, s.subnet_id))
      (st.cycleSegments false) with
  | error e =>
    unfold dataset_store_to_geograph at hok
    rw [h1, h2, h3, h4] at hok
    exact absurd hok (by simp)
  | ok sn =>
    unfold dataset_store_to_geograph at hok
    rw [h1, h2, h3, h4] at hok
    have hG : G = ⟨List.range (allStoreNodes st).length,
        enumKeyed DSNode.coord 0 (allStoreNodes st),
        enumKeyed DSNode.metric 0 (allStoreNodes st),
        edges, ws, ise, sn⟩ := by
      injection hok with h5
      exact h5.symm
    subst hG
    refine ⟨?_, rfl, ?_, ?_, ?_⟩
    · -- real-then-fake enumeration is a permutation of the store nodes
      unfold allStoreNodes DStore.cycleNodes
      have hfun : (fun n : DSNode => n.isFake == true)
          = fun n : DSNode => ! (n.isFake == false) := by
        funext n
        cases n.isFake <;> rfl
      rw [hfun]
      exact List.filter_append_perm _ st.nodes
    · intro pos h
      constructor
      · have := enumKeyed_dlookup DSNode.coord (allStoreNodes st) 0 pos h
        rw [Nat.zero_add] at this
        exact this
      · have := enumKeyed_dlookup DSNode.metric (allStoreNodes st) 0 pos h
        rw [Nat.zero_add] at this
        exact this
    · intro e he
      obtain ⟨s, hs, hfs⟩ := mapExcept_ok_mem (segToNx st) _ edges h1 e he
      have hsm := List.mem_filter.mp hs
      refine ⟨s, hsm.1, ?_, hfs⟩
      simpa using hsm.2
    · intro e he
      -- the is_existing attribute dict has e among its keys, value false
      have hkeys : ise.map Prod.fst = edges :=
        mapExcept_attr_keys (segToNx st) DSSeg.is_existing _ edges ise h1 h3
      have hkey : e ∈ ise.map Prod.fst := by rw [hkeys]; exact he
      obtain ⟨v, hv⟩ := dlookup_exists_of_mem_keys ise e hkey
      have hmem := dlookup_mem ise e v hv
      obtain ⟨s, hs, hfs⟩ := mapExcept_ok_mem _ _ ise h3 (e, v) hmem
      have hsm := List.mem_filter.mp hs
      have hex : s.is_existing = false := by simpa using hsm.2
      cases hseg : segToNx st s with
      | error er =>
        rw [hseg] at hfs
        exact absurd hfs (by simp [Except.map])
      | ok e' =>
        rw [hseg] at hfs
        simp only [Except.map] at hfs
        injection hfs with hfs
        have hv2 : v = s.is_existing := congrArg Prod.snd hfs.symm
        rw [hv, hv2, hex]

/-- Witness for C10 at a concrete store with one real and one fake
node, one proposed and one existing segment: the existing segment
contributes no edge, and the one edge carries `is_existing = false`. -/
theorem C10_store_to_geograph_witness :
    dataset_store_to_geograph stC10W = Except.ok GWC10 ∧
    dlookup GWC10.coords 1 = some ((1 : ℚ), (1 : ℚ)) ∧
    (∀ e ∈ GWC10.edges, dlookup GWC10.edge_is_existing e = some false) := by
  have h := C10_store_to_geograph stC10W GWC10 rfl
  exact ⟨rfl, (h.2.2.1 1 (by decide)).1, h.2.2.2.2⟩

end Networker
